import Mathlib

/-!
Verification of the hash-chain tool (`hashchain.c`, `test.c`).

The development is a shallow embedding of the C sources. Bytes are `Nat`
(with explicit `< 256` bounds where they matter), byte buffers are
`List Nat`, and the flat `chain_length * digest_size` buffer walked by
pointer arithmetic in C is a `List Nat` accessed through `readAt` and
`writeAt` at the same offsets the C code uses. The cryptographic digest
functions (OpenSSL EVP) are an external collaborator: they are modelled
as an abstract `HashAlgo` record carrying the hash function `H`, its
fixed output size (`EVP_MD_size`) and the contract that `H` always
returns exactly that many bytes, each a byte value.
-/

set_option linter.unusedVariables false

/-- Read `len` bytes at offset `off` from a flat buffer (the C idiom
`buf + off` passed to a function reading `len` bytes). -/
def readAt (buf : List Nat) (off len : Nat) : List Nat :=
  (buf.drop off).take len

/-- Overwrite the bytes of `buf` at offset `off` with `src` (the C idiom
of writing `src.length` bytes through the pointer `buf + off`). -/
def writeAt (buf : List Nat) (off : Nat) (src : List Nat) : List Nat :=
  buf.take off ++ src ++ buf.drop (off + src.length)

/-- An `EVP_MD` digest algorithm, an external collaborator of the C code:
a hash function with a fixed output size (`EVP_MD_size`) whose outputs
are byte sequences of exactly that size. -/
structure HashAlgo where
  H : List Nat → List Nat
  size : Nat
  size_eq : ∀ x, (H x).length = size
  bytes_lt : ∀ x, ∀ b ∈ H x, b < 256

/-- The `struct hash_chain` of hashchain.c: digest size, number of hashes,
and the flat data buffer of `chain_length * digest_size` bytes. -/
structure hash_chain where
  digest_size : Nat
  chain_length : Nat
  data : List Nat
deriving DecidableEq

/-- The loop of `hash_chain_create` (hashchain.c lines 80-85): for each
`idx` from 1 while `idx < chain_length`, hash the `digest_size` bytes at
offset `(idx-1)*digest_size` and write the digest at `idx*digest_size`. -/
def chainLoop (H : List Nat → List Nat) (d chain_len : Nat)
    (buf : List Nat) : List Nat :=
  (List.range' 1 (chain_len - 1)).foldl
    (fun b idx => writeAt b (idx * d) (H (readAt b ((idx - 1) * d) d))) buf

/-- `hash_chain_create` (hashchain.c lines 62-90): calloc a zeroed buffer
of `chain_len * digest_size` bytes, write `H(base)` at offset 0
(unconditionally), then run the loop filling the remaining digests. -/
def hash_chain_create (base : List Nat) (type : HashAlgo) (chain_len : Nat) :
    hash_chain :=
  let d := type.size
  let buf0 := List.replicate (chain_len * d) 0
  let buf1 := writeAt buf0 0 (type.H base)
  { digest_size := d
    chain_length := chain_len
    data := chainLoop type.H d chain_len buf1 }

/-- Element `i` of a chain: the `digest_size` bytes at offset
`i * digest_size` of the data buffer. -/
def chainElem (c : hash_chain) (i : Nat) : List Nat :=
  readAt c.data (i * c.digest_size) c.digest_size

/-- The mathematical iterated hash: `iterHash H base 0 = H base` and
`iterHash H base (i+1) = H (iterHash H base i)`. -/
def iterHash (H : List Nat → List Nat) (base : List Nat) : Nat → List Nat
  | 0 => H base
  | i + 1 => H (iterHash H base i)

/-- `hash_chain_verify` (hashchain.c lines 99-116): hash the first
`digest_len` bytes of `h` and `memcmp` the result against the first
`digest_len` bytes of `tip`. -/
def hash_chain_verify (h tip : List Nat) (hash : HashAlgo) : Bool :=
  decide ((hash.H (h.take hash.size)).take hash.size = tip.take hash.size)

/-! ### Base64 codec

The C code delegates base64 to OpenSSL BIO filters (an external
collaborator); the filter is modelled here. Encoding maps each group of
three bytes to four alphabet characters, padding a final group of one or
two bytes with one or two `=` characters; this is the standard base64
transform performed by `EVP_EncodeUpdate`/`EVP_EncodeFinal`. -/

/-- The base64 alphabet in index order. -/
def b64Chars : List Char :=
  "ABCDEFGHIJKLMNOPQRSTUVWXYZabcdefghijklmnopqrstuvwxyz0123456789+/".toList

/-- Character for a sextet value. -/
def b64Char (n : Nat) : Char :=
  b64Chars.getD n 'A'

/-- Helper scanning the alphabet for a character, tracking the index. -/
def b64IndexAux : List Char → Char → Nat → Option Nat
  | [], _, _ => none
  | a :: rest, c, k => if a = c then some k else b64IndexAux rest c (k + 1)

/-- Index of a character in the base64 alphabet, `none` if absent. -/
def b64Index (c : Char) : Option Nat :=
  b64IndexAux b64Chars c 0

/-- Standard base64 encoding of a byte sequence. -/
def base64_encode : List Nat → List Char
  | [] => []
  | [a] =>
      [b64Char (a / 4), b64Char (a % 4 * 16), '=', '=']
  | [a, b] =>
      [b64Char (a / 4), b64Char (a % 4 * 16 + b / 16), b64Char (b % 16 * 4), '=']
  | a :: b :: c :: rest =>
      b64Char (a / 4) :: b64Char (a % 4 * 16 + b / 16) ::
        b64Char (b % 16 * 4 + c / 64) :: b64Char (c % 64) :: base64_encode rest

/-- Standard base64 decoding of a character stream, as performed by the
OpenSSL decode filter: four characters at a time, stopping at `=`
padding, at a character outside the alphabet (the filter signals an
error there, which `base64_decode` below ignores), or at a trailing
group shorter than four characters. Returns the bytes decoded so far. -/
def base64_decode_core : List Char → List Nat
  | c0 :: c1 :: c2 :: c3 :: rest =>
    match b64Index c0, b64Index c1 with
    | some s0, some s1 =>
      let byte0 := s0 * 4 + s1 / 16
      if c2 = '=' then [byte0]
      else
        match b64Index c2 with
        | some s2 =>
          let byte1 := s1 % 16 * 16 + s2 / 4
          if c3 = '=' then [byte0, byte1]
          else
            match b64Index c3 with
            | some s3 => byte0 :: byte1 :: (s2 % 4 * 64 + s3) :: base64_decode_core rest
            | none => [byte0, byte1]
        | none => [byte0]
    | _, _ => []
  | _ => []

/-- `base64_decode` (hashchain.c lines 144-154): `BIO_read(b64, buf, explen)`
reads at most `explen` decoded bytes into a `malloc`ed buffer and its
return value is ignored; the buffer is returned unconditionally. The
model returns the initialized prefix of that buffer: the decoded bytes,
truncated to `explen`. (When fewer than `explen` bytes decode, the tail
of the C buffer stays uninitialized; no error is ever reported.) -/
def base64_decode (str : List Char) (explen : Nat) : List Nat :=
  (base64_decode_core str).take explen

/-- Decode errors named by the specification of the transport codec. -/
inductive DecodeError where
  | LengthMismatch
  | MalformedEncoding
deriving DecidableEq

/-- Equality of decode outcomes is decidable. -/
instance {ε α : Type} [DecidableEq ε] [DecidableEq α] :
    DecidableEq (Except ε α) := fun x y =>
  match x, y with
  | Except.ok a, Except.ok b => decidable_of_iff (a = b) (by simp)
  | Except.error a, Except.error b => decidable_of_iff (a = b) (by simp)
  | Except.ok _, Except.error _ => isFalse (by simp)
  | Except.error _, Except.ok _ => isFalse (by simp)

/-- Modelled from the spec (section 4.3): a decode that rejects
non-alphabet characters with `MalformedEncoding` and input decoding to a
number of bytes different from `expected_length` with `LengthMismatch`,
and returns the digest only when neither condition holds. This is the
specification-side definition, to be compared with `base64_decode`
above, which is the code-side definition. -/
def decodeAsSpecified (str : List Char) (explen : Nat) :
    Except DecodeError (List Nat) :=
  if str.all (fun c => (b64Index c).isSome || c = '=') then
    if (base64_decode_core str).length = explen then
      Except.ok (base64_decode_core str)
    else
      Except.error DecodeError.LengthMismatch
  else
    Except.error DecodeError.MalformedEncoding

/-! ### Printing

`hash_chain_print` (hashchain.c lines 123-136) pushes a base64 filter
BIO over the output file, then for each chain element writes its
`digest_size` bytes and flushes. The OpenSSL base64 filter
(`EVP_EncodeUpdate`) emits one 64-character line followed by a newline
for every 48 input bytes; `BIO_flush` (`EVP_EncodeFinal`) emits the
remaining buffered bytes as a final line with a newline, or nothing if
no bytes are buffered. Each flush resets the encoder, so every element
is encoded independently. -/

/-- Helper for `encodeLines`, structurally recursive on a fuel bounded
below by the byte count: each step emits one 64-character line for 48
input bytes, so fuel started at the byte count never runs out. -/
def encodeLinesGo : Nat → List Nat → List Char
  | 0, bytes => if bytes.length = 0 then [] else base64_encode bytes ++ ['\n']
  | fuel + 1, bytes =>
    if 48 < bytes.length then
      (base64_encode (bytes.take 48) ++ ['\n']) ++ encodeLinesGo fuel (bytes.drop 48)
    else if bytes.length = 0 then
      []
    else
      base64_encode bytes ++ ['\n']

/-- Characters emitted by the base64 filter for one element's bytes:
one line per 48-byte block, the trailing partial block as a last line,
nothing for an empty write. -/
def encodeLines (bytes : List Nat) : List Char :=
  encodeLinesGo bytes.length bytes

/-- `hash_chain_print` (hashchain.c lines 123-136): for `i` from 0 to
`chain_length - 1`, write the `digest_size` bytes at offset
`i * digest_size` through the base64 filter and flush. The model
returns the characters written to the output file. -/
def hash_chain_print (chain : hash_chain) : List Char :=
  (List.range chain.chain_length).foldl
    (fun acc i =>
      acc ++ encodeLines (readAt chain.data (i * chain.digest_size) chain.digest_size))
    []

/-! ### Command layer -/

/-- `EXIT_SUCCESS` of stdlib.h. -/
def EXIT_SUCCESS : Nat := 0

/-- `EXIT_FAILURE` of stdlib.h. -/
def EXIT_FAILURE : Nat := 1

/-- Reads a leading decimal number, as `sscanf` with `%d` does for the
digit part: at least one digit, value from the maximal digit run. -/
def readNatDigits (s : List Char) : Option Nat :=
  let ds := s.takeWhile Char.isDigit
  if ds.isEmpty then none
  else some (ds.foldl (fun a c => a * 10 + (c.toNat - 48)) 0)

/-- Model of `sscanf(str, "%d", &n)` succeeding (returning 1): optional
leading whitespace, an optional sign, then at least one digit; the
parsed value is returned. Trailing characters are ignored, as `sscanf`
ignores them. -/
def sscanf_d (s : List Char) : Option Int :=
  let s1 := s.dropWhile (fun c => c = ' ' ∨ c = '\t' ∨ c = '\n' ∨ c = '\r')
  match s1 with
  | '-' :: rest => (readNatDigits rest).map (fun n => -(n : Int))
  | '+' :: rest => (readNatDigits rest).map (fun n => (n : Int))
  | rest => (readNatDigits rest).map (fun n => (n : Int))

/-- Outcome of `cmd_create` (hashchain.c lines 159-184): the three error
paths, or control reaching `hash_chain_create` with the parsed length. -/
inductive CreateResult where
  | tooFewArgs
  | unknownHash
  | badLength
  | run (length : Int)
deriving DecidableEq

/-- `cmd_create` (hashchain.c lines 159-184): check argc, look the hash
up by name (`EVP_get_digestbyname`, modelled by the `lookup` argument),
parse the length with `sscanf "%d"`, and on success call
`hash_chain_create` with the parsed length — with no positivity check. -/
def cmd_create (lookup : String → Option HashAlgo) (argv : List String) :
    CreateResult :=
  match argv with
  | _prog :: hashName :: lenStr :: _base :: _ =>
    match lookup hashName with
    | none => CreateResult.unknownHash
    | some _hash =>
      match sscanf_d lenStr.toList with
      | none => CreateResult.badLength
      | some n => CreateResult.run n
  | _ => CreateResult.tooFewArgs

/-- Exit status of `cmd_create`: `EXIT_FAILURE` on the error paths,
`EXIT_SUCCESS` after printing the chain. -/
def create_exit : CreateResult → Nat
  | CreateResult.run _ => EXIT_SUCCESS
  | _ => EXIT_FAILURE

/-- Outcome of `cmd_verify` (hashchain.c lines 189-217): the two error
paths, or the boolean returned by `hash_chain_verify`. -/
inductive VerifyResult where
  | tooFewArgs
  | unknownHash
  | checked (res : Bool)
deriving DecidableEq

/-- `cmd_verify` (hashchain.c lines 189-217): check argc, look the hash
up by name, base64-decode the query and anchor arguments at the digest
size, and run `hash_chain_verify` on the decoded buffers. -/
def cmd_verify (lookup : String → Option HashAlgo) (argv : List String) :
    VerifyResult :=
  match argv with
  | _prog :: algoName :: query :: anchor :: _ =>
    match lookup algoName with
    | none => VerifyResult.unknownHash
    | some hash =>
      VerifyResult.checked
        (hash_chain_verify (base64_decode query.toList hash.size)
          (base64_decode anchor.toList hash.size) hash)
  | _ => VerifyResult.tooFewArgs

/-- Exit status of `cmd_verify`: `EXIT_SUCCESS` on a match ("success"
printed), `EXIT_FAILURE` on a mismatch ("failure" printed) and on both
error paths. -/
def verify_exit : VerifyResult → Nat
  | VerifyResult.checked true => EXIT_SUCCESS
  | _ => EXIT_FAILURE

/-! ### Concrete algorithm instances

The real digest functions (SHA-256 etc.) live in OpenSSL; the claims
about the C control flow and buffer layout are independent of the
particular hash, so concrete checks instantiate `HashAlgo` with small
toy hashes satisfying the same contract (fixed output size, byte-valued
output). -/

/-- Sum of a byte list, the raw material of the toy hashes. -/
def byteSum (l : List Nat) : Nat :=
  l.foldl (fun a b => a + b) 0

/-- A toy 2-byte hash function. -/
def toyH (l : List Nat) : List Nat :=
  [(byteSum l + 3) % 256, (byteSum l * 5 + 1) % 256]

/-- The toy 2-byte algorithm. -/
def toyAlgo : HashAlgo where
  H := toyH
  size := 2
  size_eq := fun _ => rfl
  bytes_lt := by
    intro x b hb
    simp [toyH] at hb
    rcases hb with h | h <;> ·
      subst h
      exact Nat.mod_lt _ (by norm_num)

/-- A toy 32-byte algorithm (same digest size as SHA-256). -/
def toy32 : HashAlgo where
  H := fun l => List.replicate 32 (byteSum l % 256)
  size := 32
  size_eq := fun _ => by simp
  bytes_lt := by
    intro x b hb
    simp [List.eq_of_mem_replicate hb]
    exact Nat.mod_lt _ (by norm_num)

/-- A toy 64-byte algorithm (same digest size as SHA-512). -/
def toy64 : HashAlgo where
  H := fun _ => List.replicate 64 0
  size := 64
  size_eq := fun _ => by simp
  bytes_lt := by
    intro x b hb
    simp [List.eq_of_mem_replicate hb]

/-- A toy digest registry standing in for the `EVP_get_digestbyname`
table of OpenSSL, which is process-wide external configuration. -/
def toyLookup (s : String) : Option HashAlgo :=
  if s = "toy" then some toyAlgo
  else if s = "toy32" then some toy32
  else if s = "toy64" then some toy64
  else none

/-! ### Buffer lemmas -/

/-- Writing inside the buffer preserves its length. -/
theorem length_writeAt (buf src : List Nat) (off : Nat)
    (h : off + src.length ≤ buf.length) :
    (writeAt buf off src).length = buf.length := by
  simp [writeAt]
  omega

/-- Reading back an in-bounds write returns the written bytes. -/
theorem readAt_writeAt_self (buf src : List Nat) (off : Nat)
    (h : off + src.length ≤ buf.length) :
    readAt (writeAt buf off src) off src.length = src := by
  unfold readAt writeAt
  have hA : (List.take off buf).length = off := by
    simp [List.length_take]
    omega
  rw [List.append_assoc, List.drop_append_eq_append_drop, hA, Nat.sub_self,
      List.drop_eq_nil_of_le (le_of_eq hA), List.nil_append, List.drop_zero,
      List.take_append_eq_append_take, List.take_length, Nat.sub_self,
      List.take_zero, List.append_nil]

/-- A write at or beyond `off` does not disturb a read below `off`. -/
theorem readAt_writeAt_left (buf src : List Nat) (off joff len : Nat)
    (h : joff + len ≤ off) (h2 : off ≤ buf.length) :
    readAt (writeAt buf off src) joff len = readAt buf joff len := by
  unfold readAt writeAt
  have hA : (List.take off buf).length = off := by
    simp [List.length_take]
    omega
  rw [List.append_assoc, List.drop_append_eq_append_drop, hA,
      List.take_append_eq_append_take]
  have hlen : ((List.take off buf).drop joff).length = off - joff := by
    simp [List.length_drop, hA]
  rw [hlen, (by omega : len - (off - joff) = 0), List.take_zero, List.append_nil,
      List.drop_take, List.take_take, (by omega : len ⊓ (off - joff) = len)]

/-- `readAt_writeAt_self` stated through an explicit length equation. -/
theorem readAt_writeAt_self_len (buf src : List Nat) (off L : Nat)
    (hs : src.length = L) (h : off + L ≤ buf.length) :
    readAt (writeAt buf off src) off L = src := by
  subst hs
  exact readAt_writeAt_self buf src off h

/-- Length of every iterated hash value is the algorithm's output size. -/
theorem iterHash_length (a : HashAlgo) (base : List Nat) (j : Nat) :
    (iterHash a.H base j).length = a.size := by
  cases j <;> simp [iterHash, a.size_eq]

/-- Unfolding of the iterated hash at a positive index. -/
theorem iterHash_pred (H : List Nat → List Nat) (base : List Nat) (j : Nat)
    (hj : 1 ≤ j) : iterHash H base j = H (iterHash H base (j - 1)) := by
  obtain ⟨k, rfl⟩ : ∃ k, j = k + 1 := ⟨j - 1, by omega⟩
  simp [iterHash]

/-- Invariant of the `hash_chain_create` loop: folding the loop body
over the indices `idx .. idx+m-1`, starting from a buffer of the final
size whose elements below `idx` already hold the iterated hashes, fills
every element below `len = idx + m`. -/
theorem chainLoop_go_spec (H : List Nat → List Nat) (d len : Nat)
    (base : List Nat) (hH : ∀ x, (H x).length = d) :
    ∀ m idx buf, 1 ≤ idx → idx + m = len → buf.length = len * d →
      (∀ j, j < idx → readAt buf (j * d) d = iterHash H base j) →
      ∀ j, j < len →
        readAt ((List.range' idx m).foldl
          (fun b i => writeAt b (i * d) (H (readAt b ((i - 1) * d) d))) buf)
          (j * d) d = iterHash H base j := by
  intro m
  induction m with
  | zero =>
    intro idx buf h1 h2 h3 hinv j hj
    simpa using hinv j (by omega)
  | succ n ih =>
    intro idx buf h1 h2 h3 hinv j hj
    rw [List.range'_succ, List.foldl_cons]
    have hwrite : idx * d + d ≤ buf.length := by
      rw [h3]
      calc idx * d + d = (idx + 1) * d := by ring
        _ ≤ len * d := Nat.mul_le_mul_right d (by omega)
    refine ih (idx + 1) _ (by omega) (by omega) ?_ ?_ j hj
    · rw [length_writeAt _ _ _ (by rw [hH]; exact hwrite)]
      exact h3
    · intro j' hj1
      rcases Nat.lt_or_ge j' idx with hcase | hcase
      · rw [readAt_writeAt_left _ _ _ _ _ ?_ ?_]
        · exact hinv j' hcase
        · calc j' * d + d = (j' + 1) * d := by ring
            _ ≤ idx * d := Nat.mul_le_mul_right d (by omega)
        · rw [h3]
          exact Nat.mul_le_mul_right d (by omega)
      · have hj3 : j' = idx := by omega
        subst hj3
        rw [readAt_writeAt_self_len _ _ _ _ (hH _) hwrite,
            hinv (j' - 1) (by omega),
            iterHash_pred H base j' (by omega)]

/-- Element characterization of `hash_chain_create`: for `len >= 1`,
element `j` of the produced chain is the `j`-th iterated hash of the
seed. -/
theorem hash_chain_create_elem (base : List Nat) (a : HashAlgo) (len : Nat)
    (hlen : 1 ≤ len) :
    ∀ j, j < len →
      chainElem (hash_chain_create base a len) j = iterHash a.H base j := by
  intro j hj
  have hbase : (a.H base).length = a.size := a.size_eq base
  have hsz : a.size ≤ len * a.size := by
    calc a.size = 1 * a.size := by ring
      _ ≤ len * a.size := Nat.mul_le_mul_right a.size hlen
  have hbuf1 : (writeAt (List.replicate (len * a.size) 0) 0 (a.H base)).length
      = len * a.size := by
    rw [length_writeAt _ _ _ (by simp [hbase]; omega)]
    simp
  show readAt (hash_chain_create base a len).data
      (j * (hash_chain_create base a len).digest_size)
      (hash_chain_create base a len).digest_size = iterHash a.H base j
  simp only [hash_chain_create, chainLoop]
  apply chainLoop_go_spec a.H a.size len base a.size_eq (len - 1) 1 _ (by omega)
    (by omega) hbuf1 _ j hj
  intro j' hj1
  have hj0 : j' = 0 := by omega
  subst hj0
  simp only [Nat.zero_mul]
  rw [readAt_writeAt_self_len _ _ _ _ hbase (by simp [hbase]; omega)]
  rfl

/-! ### Base64 round-trip -/

/-- The alphabet lookup inverts the alphabet character map. -/
theorem b64Index_b64Char : ∀ s, s < 64 → b64Index (b64Char s) = some s := by
  decide

/-- No alphabet character is the padding character. -/
theorem b64Char_ne_eq : ∀ s, s < 64 → ¬ b64Char s = '=' := by
  decide

/-- Decoding inverts encoding, by strong induction on the byte list in
groups of three. -/
theorem base64_decode_encode_aux : ∀ (n : Nat) (l : List Nat), l.length ≤ n →
    (∀ b ∈ l, b < 256) → base64_decode_core (base64_encode l) = l := by
  intro n
  induction n with
  | zero =>
    intro l hl hb
    rcases l with _ | ⟨a, l⟩
    · rfl
    · simp at hl
  | succ n ih =>
    intro l hl hb
    rcases l with _ | ⟨a, l⟩
    · rfl
    rcases l with _ | ⟨b, l⟩
    · have ha : a < 256 := hb a (by simp)
      have h0 : a / 4 < 64 := by omega
      have h1 : a % 4 * 16 < 64 := by omega
      simp only [base64_encode, base64_decode_core, b64Index_b64Char _ h0,
        b64Index_b64Char _ h1]
      simp only [List.cons.injEq, and_true, if_true, reduceIte]
      omega
    rcases l with _ | ⟨c, rest⟩
    · have ha : a < 256 := hb a (by simp)
      have hbb : b < 256 := hb b (by simp)
      have h0 : a / 4 < 64 := by omega
      have h1 : a % 4 * 16 + b / 16 < 64 := by omega
      have h2 : b % 16 * 4 < 64 := by omega
      have hne : ¬ b64Char (b % 16 * 4) = '=' := b64Char_ne_eq _ h2
      simp only [base64_encode, base64_decode_core, b64Index_b64Char _ h0,
        b64Index_b64Char _ h1, b64Index_b64Char _ h2]
      simp only [if_neg hne, reduceIte, List.cons.injEq, and_true]
      constructor
      · omega
      · omega
    · have ha : a < 256 := hb a (by simp)
      have hbb : b < 256 := hb b (by simp)
      have hc : c < 256 := hb c (by simp)
      have h0 : a / 4 < 64 := by omega
      have h1 : a % 4 * 16 + b / 16 < 64 := by omega
      have h2 : b % 16 * 4 + c / 64 < 64 := by omega
      have h3 : c % 64 < 64 := by omega
      have hne2 : ¬ b64Char (b % 16 * 4 + c / 64) = '=' := b64Char_ne_eq _ h2
      have hne3 : ¬ b64Char (c % 64) = '=' := b64Char_ne_eq _ h3
      have hrest : base64_decode_core (base64_encode rest) = rest := by
        refine ih rest ?_ ?_
        · simp at hl
          omega
        · intro x hx
          exact hb x (by simp [hx])
      simp only [base64_encode, base64_decode_core, b64Index_b64Char _ h0,
        b64Index_b64Char _ h1, b64Index_b64Char _ h2, b64Index_b64Char _ h3]
      simp only [if_neg hne2, if_neg hne3, hrest, List.cons.injEq]
      refine ⟨by omega, by omega, by omega, trivial⟩

/-- Round trip of the codec core: decoding an encoded byte list returns
the byte list. -/
theorem base64_roundtrip_core (l : List Nat) (hb : ∀ b ∈ l, b < 256) :
    base64_decode_core (base64_encode l) = l :=
  base64_decode_encode_aux l.length l le_rfl hb

/-! ### Allocation model

`hash_chain_create` touches the outside world only through `calloc` (the
chain buffer), `EVP_MD_CTX_create` and `EVP_MD_CTX_destroy` (a scratch
context, freed before returning). A small allocator state makes that
observable: `halloc` appends a block and bumps the next fresh address,
`hfree` removes a block. -/

/-- Allocator state: live blocks `(address, size)` and the next fresh
address. -/
structure CHeap where
  blocks : List (Nat × Nat)
  next : Nat
deriving DecidableEq

/-- Allocate a block of the given size at the next fresh address. -/
def halloc (s : CHeap) (sz : Nat) : Nat × CHeap :=
  (s.next, ⟨s.blocks ++ [(s.next, sz)], s.next + 1⟩)

/-- Free the block at an address. -/
def hfree (s : CHeap) (addr : Nat) : CHeap :=
  ⟨s.blocks.filter (fun blk => blk.1 != addr), s.next⟩

/-- `hash_chain_create` with its allocation behaviour made explicit:
`calloc(chain_len, digest_size)` for the chain data, a digest context
created and destroyed around the hashing, whose pure result is
`hash_chain_create`. -/
def hash_chain_create_heap (base : List Nat) (a : HashAlgo) (chain_len : Nat)
    (s : CHeap) : hash_chain × CHeap :=
  let allocData := halloc s (chain_len * a.size)
  let allocCtx := halloc allocData.2 1
  let chain := hash_chain_create base a chain_len
  let s3 := hfree allocCtx.2 allocCtx.1
  (chain, s3)

/-! ### Further facts about the builder and the printer -/

/-- The `hash_chain_create` loop preserves the buffer length. -/
theorem chainLoop_go_length (H : List Nat → List Nat) (d len : Nat)
    (hH : ∀ x, (H x).length = d) :
    ∀ m idx buf, idx + m ≤ len → buf.length = len * d →
      ((List.range' idx m).foldl
        (fun b i => writeAt b (i * d) (H (readAt b ((i - 1) * d) d))) buf).length
        = len * d := by
  intro m
  induction m with
  | zero =>
    intro idx buf h1 h2
    simpa using h2
  | succ n ih =>
    intro idx buf h1 h2
    rw [List.range'_succ, List.foldl_cons]
    refine ih (idx + 1) _ (by omega) ?_
    rw [length_writeAt _ _ _ ?_]
    · exact h2
    · rw [hH, h2]
      calc idx * d + d = (idx + 1) * d := by ring
        _ ≤ len * d := Nat.mul_le_mul_right d (by omega)

/-- The data buffer of a created chain has exactly
`chain_length * digest_size` bytes (the `calloc` size). -/
theorem hash_chain_create_data_length (base : List Nat) (a : HashAlgo)
    (len : Nat) (hlen : 1 ≤ len) :
    (hash_chain_create base a len).data.length = len * a.size := by
  have hsz : a.size ≤ len * a.size := by
    calc a.size = 1 * a.size := by ring
      _ ≤ len * a.size := Nat.mul_le_mul_right a.size hlen
  show (chainLoop a.H a.size len
      (writeAt (List.replicate (len * a.size) 0) 0 (a.H base))).length
      = len * a.size
  unfold chainLoop
  apply chainLoop_go_length a.H a.size len a.size_eq (len - 1) 1 _ (by omega)
  rw [length_writeAt _ _ _ (by simp [a.size_eq]; omega)]
  simp

/-- On a write of 1 to 48 bytes the base64 filter emits a single line:
the base64 encoding followed by one newline. -/
theorem encodeLines_small (bytes : List Nat) (h1 : 1 ≤ bytes.length)
    (h48 : bytes.length ≤ 48) :
    encodeLines bytes = base64_encode bytes ++ ['\n'] := by
  unfold encodeLines
  obtain ⟨k, hk⟩ : ∃ k, bytes.length = k + 1 := ⟨bytes.length - 1, by omega⟩
  rw [hk, encodeLinesGo, if_neg (by omega), if_neg (by omega)]

/-- Folding appends of per-element output is flattening the per-element
outputs. -/
theorem foldl_append_flatten (f : Nat → List Char) :
    ∀ (l : List Nat) (init : List Char),
      l.foldl (fun acc i => acc ++ f i) init = init ++ (l.map f).flatten := by
  intro l
  induction l with
  | nil =>
    intro init
    simp
  | cons x xs ih =>
    intro init
    simp [List.foldl_cons, ih, List.append_assoc]

/-- No character the base64 encoder emits is a newline. -/
theorem b64Char_ne_newline (n : Nat) : ¬ b64Char n = '\n' := by
  by_cases h : n < 64
  · revert h
    revert n
    decide
  · unfold b64Char
    rw [List.getD_eq_default]
    · decide
    · have hlen : b64Chars.length = 64 := by decide
      omega

/-- The encoding of a byte list contains no newline. -/
theorem newline_not_mem_encode (l : List Nat) : '\n' ∉ base64_encode l := by
  have hn : ∀ m, ¬ ('\n' = b64Char m) := fun m h => b64Char_ne_newline m h.symm
  have hp : ¬ ('\n' = '=') := by decide
  induction l using base64_encode.induct with
  | case1 => simp [base64_encode]
  | case2 a => simp [base64_encode, hn, hp]
  | case3 a b => simp [base64_encode, hn, hp]
  | case4 a b c rest ih => simp [base64_encode, hn, hp, ih]

/-- When both digests have the algorithm's length, verification succeeds
exactly when hashing the candidate gives the tip. -/
theorem hash_chain_verify_iff (a : HashAlgo) (cand tip : List Nat)
    (hc : cand.length = a.size) (ht : tip.length = a.size) :
    hash_chain_verify cand tip a = true ↔ a.H cand = tip := by
  unfold hash_chain_verify
  rw [List.take_of_length_le (le_of_eq hc), List.take_of_length_le (le_of_eq ht),
      List.take_of_length_le (le_of_eq (a.size_eq cand))]
  simp

/-! ### The claims -/

/-- C1: for every seed, every valid algorithm of output size `d` and
every `length >= 1`, `hash_chain_create` returns a chain with
`chain_length = length`, element 0 equal to `H(seed)`, element `i` equal
to `H` of element `i-1` for `1 <= i < length`, and every element exactly
`d` bytes; `length = 1` gives the single-element chain `[H(seed)]`. -/
theorem hash_chain_create_correct (base : List Nat) (a : HashAlgo)
    (len : Nat) (hlen : 1 ≤ len) :
    (hash_chain_create base a len).chain_length = len ∧
    chainElem (hash_chain_create base a len) 0 = a.H base ∧
    (∀ i, 1 ≤ i → i < len →
      chainElem (hash_chain_create base a len) i =
        a.H (chainElem (hash_chain_create base a len) (i - 1))) ∧
    (∀ i, i < len →
      (chainElem (hash_chain_create base a len) i).length = a.size) := by
  refine ⟨rfl, ?_, ?_, ?_⟩
  · rw [hash_chain_create_elem base a len hlen 0 (by omega)]
    rfl
  · intro i h1 h2
    rw [hash_chain_create_elem base a len hlen i h2,
        hash_chain_create_elem base a len hlen (i - 1) (by omega),
        iterHash_pred a.H base i h1]
  · intro i h2
    rw [hash_chain_create_elem base a len hlen i h2, iterHash_length]

/-- Witness for C1 at the toy algorithm, seed `[104, 105]`, length 3. -/
theorem hash_chain_create_correct_witness :
    (hash_chain_create [104, 105] toyAlgo 3).chain_length = 3 ∧
    chainElem (hash_chain_create [104, 105] toyAlgo 3) 0 =
      toyAlgo.H [104, 105] ∧
    (∀ i, 1 ≤ i → i < 3 →
      chainElem (hash_chain_create [104, 105] toyAlgo 3) i =
        toyAlgo.H (chainElem (hash_chain_create [104, 105] toyAlgo 3) (i - 1))) ∧
    (∀ i, i < 3 →
      (chainElem (hash_chain_create [104, 105] toyAlgo 3) i).length
        = toyAlgo.size) :=
  hash_chain_create_correct [104, 105] toyAlgo 3 (by decide)

/-- C2: verification returns true iff `H(candidate)` equals `tip`
byte-for-byte; it returns false (no exception) on every candidate whose
hash differs; and every adjacent pair of a built chain verifies. -/
theorem hash_chain_verify_correct (a : HashAlgo) :
    (∀ cand tip, cand.length = a.size → tip.length = a.size →
      (hash_chain_verify cand tip a = true ↔ a.H cand = tip)) ∧
    (∀ cand tip, cand.length = a.size → tip.length = a.size →
      ¬ a.H cand = tip → hash_chain_verify cand tip a = false) ∧
    (∀ base len i, 1 ≤ len → 1 ≤ i → i < len →
      hash_chain_verify (chainElem (hash_chain_create base a len) (i - 1))
        (chainElem (hash_chain_create base a len) i) a = true) := by
  refine ⟨fun cand tip hc ht => hash_chain_verify_iff a cand tip hc ht, ?_, ?_⟩
  · intro cand tip hc ht hne
    rcases Bool.eq_false_or_eq_true (hash_chain_verify cand tip a) with h | h
    · exact absurd ((hash_chain_verify_iff a cand tip hc ht).mp h) hne
    · exact h
  · intro base len i h0 h1 h2
    refine (hash_chain_verify_iff a _ _ ?_ ?_).mpr ?_
    · rw [hash_chain_create_elem base a len h0 (i - 1) (by omega), iterHash_length]
    · rw [hash_chain_create_elem base a len h0 i h2, iterHash_length]
    · rw [hash_chain_create_elem base a len h0 (i - 1) (by omega),
          hash_chain_create_elem base a len h0 i h2,
          iterHash_pred a.H base i h1]

/-- Witness for C2: adjacent elements 1 and 2 of a concrete toy chain
verify, instantiating the third conjunct of the claim theorem. -/
theorem hash_chain_verify_correct_witness :
    hash_chain_verify (chainElem (hash_chain_create [7] toyAlgo 3) 1)
      (chainElem (hash_chain_create [7] toyAlgo 3) 2) toyAlgo = true :=
  (hash_chain_verify_correct toyAlgo).2.2 [7] 3 2 (by decide) (by decide)
    (by decide)

/-- C10: the verification result depends only on the first
`EVP_MD_size` bytes of the two digest buffers; equivalently, the
function reads no byte beyond that length -- its value on any buffers
equals its value on their `size`-byte prefixes. -/
theorem hash_chain_verify_reads_only_digest (a : HashAlgo)
    (h1 h2 t1 t2 : List Nat)
    (hh : h1.take a.size = h2.take a.size)
    (ht : t1.take a.size = t2.take a.size) :
    hash_chain_verify h1 t1 a = hash_chain_verify h2 t2 a ∧
    hash_chain_verify h1 t1 a =
      hash_chain_verify (h1.take a.size) (t1.take a.size) a := by
  constructor
  · unfold hash_chain_verify
    rw [hh, ht]
  · unfold hash_chain_verify
    simp [List.take_take]

/-- Witness for C10: buffers differing only beyond the 2-byte toy digest
size verify identically. -/
theorem hash_chain_verify_reads_only_digest_witness :
    hash_chain_verify [1, 2, 3] [5, 6] toyAlgo =
      hash_chain_verify [1, 2, 9] [5, 6, 7] toyAlgo ∧
    hash_chain_verify [1, 2, 3] [5, 6] toyAlgo =
      hash_chain_verify (List.take toyAlgo.size [1, 2, 3])
        (List.take toyAlgo.size [5, 6]) toyAlgo :=
  hash_chain_verify_reads_only_digest toyAlgo [1, 2, 3] [1, 2, 9] [5, 6]
    [5, 6, 7] (by decide) (by decide)

/-- C6: decoding the encoding of a digest of the algorithm's fixed
length at expected length `len(d)` returns the digest exactly. -/
theorem base64_roundtrip (a : HashAlgo) (d : List Nat)
    (hlen : d.length = a.size) (hb : ∀ b ∈ d, b < 256) :
    base64_decode (base64_encode d) d.length = d := by
  unfold base64_decode
  rw [base64_roundtrip_core d hb, List.take_length]

/-- Witness for C6 on an actual toy digest. -/
theorem base64_roundtrip_witness :
    base64_decode (base64_encode (toyAlgo.H [42])) (toyAlgo.H [42]).length =
      toyAlgo.H [42] :=
  base64_roundtrip toyAlgo (toyAlgo.H [42]) (by decide) (by decide)

/-- Counterexample to C3: a valid base64 text decoding to 16 bytes,
passed with expected length 32, must fail with `LengthMismatch`
according to the claim, but `base64_decode` returns a buffer anyway, and
`cmd_verify` feeds it straight into verification, producing an ordinary
mismatch result instead of a decode failure. -/
theorem base64_decode_no_length_check :
    decodeAsSpecified (base64_encode (List.replicate 16 0)) 32 =
      Except.error DecodeError.LengthMismatch ∧
    base64_decode (base64_encode (List.replicate 16 0)) 32 =
      List.replicate 16 0 ∧
    cmd_verify toyLookup ["verify", "toy32",
      String.mk (base64_encode (List.replicate 16 0)),
      String.mk (base64_encode (List.replicate 16 0))] =
      VerifyResult.checked false := by
  decide

/-- C3 amended: `base64_decode` never rejects its input; whenever the
specified decode succeeds, the code returns the same digest, but on
erroneous input (wrong decoded length or non-alphabet characters) the
code still returns a buffer -- the decoded bytes truncated to the
expected length, the C buffer's tail beyond them uninitialized -- and no
`LengthMismatch` or `MalformedEncoding` failure exists in the code. -/
theorem base64_decode_ok_of_spec (str : List Char) (explen : Nat)
    (d : List Nat) (h : decodeAsSpecified str explen = Except.ok d) :
    base64_decode str explen = d := by
  unfold decodeAsSpecified at h
  split at h
  · split at h
    · injection h with h3
      unfold base64_decode
      rename_i h2
      rw [← h2, List.take_length, h3]
    · exact absurd h (by simp)
  · exact absurd h (by simp)

/-- Witness for the amended C3 on a well-formed 32-byte digest text. -/
theorem base64_decode_ok_of_spec_witness :
    base64_decode (base64_encode (List.replicate 32 7)) 32 =
      List.replicate 32 7 :=
  base64_decode_ok_of_spec (base64_encode (List.replicate 32 7)) 32
    (List.replicate 32 7) (by decide)

/-- C4 (code bug): `cmd_create` rejects only non-numeric length
arguments; `"0"` and `"-3"` are parsed successfully and control reaches
`hash_chain_create` with a non-positive chain length (where the first
digest is then written into a zero-byte allocation), with exit status
`EXIT_SUCCESS` -- there is no `InvalidLength` failure for non-positive
lengths. -/
theorem cmd_create_accepts_nonpositive_length :
    cmd_create toyLookup ["create", "toy", "0", "seed"] =
      CreateResult.run 0 ∧
    cmd_create toyLookup ["create", "toy", "-3", "seed"] =
      CreateResult.run (-3) ∧
    cmd_create toyLookup ["create", "toy", "abc", "seed"] =
      CreateResult.badLength ∧
    create_exit (cmd_create toyLookup ["create", "toy", "0", "seed"]) =
      EXIT_SUCCESS := by
  decide

/-- Counterexample to C5: an unknown algorithm name (malformed input)
and a non-matching candidate (mismatch) produce the same exit status
`EXIT_FAILURE`, so the three verify outcomes are not pairwise
distinguished; only the match outcome gets a distinct status. -/
theorem cmd_verify_exit_collision :
    cmd_verify toyLookup ["verify", "nosuchalgo",
      String.mk (base64_encode [1, 2]),
      String.mk (base64_encode [9, 9])] = VerifyResult.unknownHash ∧
    cmd_verify toyLookup ["verify", "toy",
      String.mk (base64_encode [1, 2]),
      String.mk (base64_encode [9, 9])] = VerifyResult.checked false ∧
    cmd_verify toyLookup ["verify", "toy",
      String.mk (base64_encode [1, 2]),
      String.mk (base64_encode (toyAlgo.H [1, 2]))] =
      VerifyResult.checked true ∧
    verify_exit (cmd_verify toyLookup ["verify", "nosuchalgo",
      String.mk (base64_encode [1, 2]),
      String.mk (base64_encode [9, 9])]) =
      verify_exit (cmd_verify toyLookup ["verify", "toy",
        String.mk (base64_encode [1, 2]),
        String.mk (base64_encode [9, 9])]) ∧
    verify_exit (cmd_verify toyLookup ["verify", "toy",
      String.mk (base64_encode [1, 2]),
      String.mk (base64_encode (toyAlgo.H [1, 2]))]) = EXIT_SUCCESS := by
  decide

/-- C5 amended: the exit status of a verify invocation is `EXIT_SUCCESS`
exactly on a match; mismatch and malformed input (unknown algorithm,
missing arguments) all share `EXIT_FAILURE`, so a match is distinguished
from the other outcomes but mismatch and malformed input are not
distinguished from each other. -/
theorem cmd_verify_exit_iff_match (lookup : String → Option HashAlgo)
    (argv : List String) :
    verify_exit (cmd_verify lookup argv) = EXIT_SUCCESS ↔
      cmd_verify lookup argv = VerifyResult.checked true := by
  cases h : cmd_verify lookup argv with
  | tooFewArgs => simp [verify_exit, EXIT_SUCCESS, EXIT_FAILURE]
  | unknownHash => simp [verify_exit, EXIT_SUCCESS, EXIT_FAILURE]
  | checked b => cases b <;> simp [verify_exit, EXIT_SUCCESS, EXIT_FAILURE]

/-- Flattening lines that each contain the marker character exactly once
gives one occurrence per line. -/
theorem count_flatten_ones (ch : Char) :
    ∀ (ls : List (List Char)), (∀ s ∈ ls, s.count ch = 1) →
      ls.flatten.count ch = ls.length := by
  intro ls
  induction ls with
  | nil =>
    intro h
    simp
  | cons x xs ih =>
    intro h
    rw [List.flatten_cons, List.count_append, h x (by simp),
        ih (fun s hs => h s (by simp [hs])), List.length_cons]
    omega

/-- Counterexample to C7: with a 64-byte digest algorithm (the size of
SHA-512) the base64 filter wraps each element onto two lines, so a chain
of length 1 prints with 2 line terminators, not 1, and the output is not
the element's encoding followed by a single terminator. -/
theorem hash_chain_print_line_count_cex :
    (hash_chain_create [] toy64 1).chain_length = 1 ∧
    (hash_chain_print (hash_chain_create [] toy64 1)).count '\n' = 2 ∧
    ¬ (hash_chain_print (hash_chain_create [] toy64 1)).count '\n' =
        (hash_chain_create [] toy64 1).chain_length ∧
    ¬ hash_chain_print (hash_chain_create [] toy64 1) =
        base64_encode (chainElem (hash_chain_create [] toy64 1) 0) ++ ['\n'] := by
  decide

/-- C7 amended: for every built chain whose digest size is between 1 and
48 bytes (all digests up to 384 bits, e.g. SHA-256), printing writes
exactly `N` lines, the base64 encoding of each element followed by one
line terminator, in chain order; digests larger than 48 bytes are
wrapped by the base64 filter onto several lines. -/
theorem hash_chain_print_lines (base : List Nat) (a : HashAlgo) (len : Nat)
    (hlen : 1 ≤ len) (hs1 : 1 ≤ a.size) (hs48 : a.size ≤ 48) :
    hash_chain_print (hash_chain_create base a len) =
      ((List.range len).map
        (fun i => base64_encode (chainElem (hash_chain_create base a len) i)
          ++ ['\n'])).flatten ∧
    (hash_chain_print (hash_chain_create base a len)).count '\n' = len := by
  have hlength : ∀ i, i < len →
      (chainElem (hash_chain_create base a len) i).length = a.size := by
    intro i hi
    rw [hash_chain_create_elem base a len hlen i hi, iterHash_length]
  have hmain : hash_chain_print (hash_chain_create base a len) =
      ((List.range len).map
        (fun i => base64_encode (chainElem (hash_chain_create base a len) i)
          ++ ['\n'])).flatten := by
    unfold hash_chain_print
    rw [foldl_append_flatten, List.nil_append]
    show ((List.range len).map
      (fun i => encodeLines (readAt (hash_chain_create base a len).data
        (i * (hash_chain_create base a len).digest_size)
        (hash_chain_create base a len).digest_size))).flatten = _
    refine congrArg List.flatten (List.map_congr_left ?_)
    intro i hi
    have hi' : i < len := List.mem_range.mp hi
    show encodeLines (chainElem (hash_chain_create base a len) i) = _
    rw [encodeLines_small _ ?_ ?_]
    · rw [hlength i hi']
      exact hs1
    · rw [hlength i hi']
      exact hs48
  refine ⟨hmain, ?_⟩
  rw [hmain, count_flatten_ones]
  · simp
  · intro s hs
    obtain ⟨i, hi, rfl⟩ := List.mem_map.mp hs
    rw [List.count_append, List.count_eq_zero.mpr (newline_not_mem_encode _)]
    simp

/-- Witness for the amended C7 on a toy 2-byte chain of length 2. -/
theorem hash_chain_print_lines_witness :
    hash_chain_print (hash_chain_create [5] toyAlgo 2) =
      ((List.range 2).map
        (fun i => base64_encode (chainElem (hash_chain_create [5] toyAlgo 2) i)
          ++ ['\n'])).flatten ∧
    (hash_chain_print (hash_chain_create [5] toyAlgo 2)).count '\n' = 2 :=
  hash_chain_print_lines [5] toyAlgo 2 (by decide) (by decide) (by decide)

/-- C8: chain construction is deterministic -- its value is the same
pure function of `(seed, algorithm, length)` whatever the allocator
state -- and its only effect on the allocator is the one chain buffer
block of `chain_len * digest_size` bytes (the digest context it creates
is destroyed before returning). The freshness hypothesis states that
allocated addresses are fresh, as a real allocator guarantees. -/
theorem hash_chain_create_deterministic (base : List Nat) (a : HashAlgo)
    (len : Nat) (s1 s2 : CHeap)
    (hfresh : ∀ blk ∈ s1.blocks, blk.1 < s1.next) :
    (hash_chain_create_heap base a len s1).1 =
      (hash_chain_create_heap base a len s2).1 ∧
    (hash_chain_create_heap base a len s1).1 = hash_chain_create base a len ∧
    (hash_chain_create_heap base a len s1).2.blocks =
      s1.blocks ++ [(s1.next, len * a.size)] := by
  refine ⟨rfl, rfl, ?_⟩
  show ((s1.blocks ++ [(s1.next, len * a.size)] ++ [(s1.next + 1, 1)]).filter
      (fun blk => blk.1 != s1.next + 1)) = s1.blocks ++ [(s1.next, len * a.size)]
  rw [List.filter_append, List.filter_append]
  rw [List.filter_eq_self.mpr ?_]
  · have hbne : (s1.next != s1.next + 1) = true := by
      simp only [bne_iff_ne, ne_eq]
      omega
    have h1 : List.filter (fun blk => blk.1 != s1.next + 1)
        [(s1.next, len * a.size)] = [(s1.next, len * a.size)] := by
      simp [List.filter, hbne]
    have h2 : List.filter (fun blk => blk.1 != s1.next + 1)
        [(s1.next + 1, 1)] = [] := by
      simp [List.filter]
    rw [h1, h2, List.append_nil]
  · intro blk hblk
    have hlt := hfresh blk hblk
    simp [bne_iff_ne]
    omega

/-- Witness for C8 from two different concrete allocator states. -/
theorem hash_chain_create_deterministic_witness :
    (hash_chain_create_heap [1] toyAlgo 2 ⟨[], 0⟩).1 =
      (hash_chain_create_heap [1] toyAlgo 2 ⟨[(0, 5)], 1⟩).1 ∧
    (hash_chain_create_heap [1] toyAlgo 2 ⟨[], 0⟩).1 =
      hash_chain_create [1] toyAlgo 2 ∧
    (hash_chain_create_heap [1] toyAlgo 2 ⟨[], 0⟩).2.blocks =
      ([] : List (Nat × Nat)) ++ [(0, 2 * toyAlgo.size)] :=
  hash_chain_create_deterministic [1] toyAlgo 2 ⟨[], 0⟩ ⟨[(0, 5)], 1⟩
    (by decide)

/-- The byte ranges `hash_chain_create` writes into the chain buffer, as
`(offset, byte count)` pairs, read off the source: the unconditional
digest of the seed at offset 0 (line 77), then one digest at offset
`idx * digest_size` for each loop index `idx` in `[1, chain_len)`
(line 84). -/
def createWriteOffsets (d chain_len : Nat) : List (Nat × Nat) :=
  (0, d) :: (List.range' 1 (chain_len - 1)).map (fun i => (i * d, d))

/-- C9: under the precondition `chain_len >= 1` (and a digest size of at
least one byte), every write of `hash_chain_create` falls inside the
allocated `chain_len * d` bytes, the writes being exactly one `d`-byte
element at offset `i * d` for each `i < chain_len`; the precondition is
required: for `chain_len = 0` the unconditional first write of `d` bytes
at offset 0 exceeds the zero-byte allocation. The built chain's buffer
indeed has `chain_len * d` bytes. -/
theorem hash_chain_create_writes_in_bounds (d chain_len : Nat)
    (h1 : 1 ≤ chain_len) (h2 : 1 ≤ d) :
    (∀ w ∈ createWriteOffsets d chain_len, w.1 + w.2 ≤ chain_len * d) ∧
    createWriteOffsets d chain_len =
      (List.range chain_len).map (fun i => (i * d, d)) ∧
    ((0, d) ∈ createWriteOffsets d 0 ∧ ¬ 0 + d ≤ 0 * d) ∧
    (∀ (base : List Nat) (a : HashAlgo), a.size = d →
      (hash_chain_create base a chain_len).data.length = chain_len * d) := by
  refine ⟨?_, ?_, ?_, ?_⟩
  · intro w hw
    rcases List.mem_cons.mp hw with hw0 | hwmap
    · subst hw0
      show 0 + d ≤ chain_len * d
      calc 0 + d = 1 * d := by ring
        _ ≤ chain_len * d := Nat.mul_le_mul_right d h1
    · obtain ⟨i, hi, rfl⟩ := List.mem_map.mp hwmap
      obtain ⟨k, hk, hik⟩ := List.mem_range'.mp hi
      show i * d + d ≤ chain_len * d
      calc i * d + d = (i + 1) * d := by ring
        _ ≤ chain_len * d := Nat.mul_le_mul_right d (by omega)
  · obtain ⟨m, rfl⟩ : ∃ m, chain_len = m + 1 := ⟨chain_len - 1, by omega⟩
    unfold createWriteOffsets
    rw [List.range_eq_range', List.range'_succ, List.map_cons]
    simp
  · refine ⟨List.mem_cons_self _ _, by omega⟩
  · intro base a hsize
    subst hsize
    exact hash_chain_create_data_length base a chain_len h1

/-- Witness for C9 at digest size 2 and chain length 3. -/
theorem hash_chain_create_writes_in_bounds_witness :
    (∀ w ∈ createWriteOffsets 2 3, w.1 + w.2 ≤ 3 * 2) ∧
    createWriteOffsets 2 3 = (List.range 3).map (fun i => (i * 2, 2)) ∧
    ((0, 2) ∈ createWriteOffsets 2 0 ∧ ¬ 0 + 2 ≤ 0 * 2) ∧
    (∀ (base : List Nat) (a : HashAlgo), a.size = 2 →
      (hash_chain_create base a 3).data.length = 3 * 2) :=
  hash_chain_create_writes_in_bounds 2 3 (by decide) (by decide)
